import Mathlib

/-!
Verification of the acquire/compress pipeline of `acquire.py`.

The program runs two workers over a double buffer: a capture loop
(`capture_cv2` / `capture_asi`) fills one of two frame stacks and marks it
ready through a shared integer flag, and a reduction loop (`compress`) waits
for a ready stack, computes four per-pixel statistical planes (maximum,
argmax index, trimmed mean, trimmed standard deviation), vertically flips
them, and writes them out as a single four-plane array.

This file gives a shallow embedding of those loops: frames are functions on
bounded indices with natural-number pixel values, float arithmetic is
modelled exactly over the rationals, the shared-flag handoff is a small
step system driven by an explicit worker schedule, and the fallible parts
of the loops (frame reads, record emission) return `Option` / flags.
-/

/-! ## Per-pixel statistics of `compress` (acquire.py lines 193-205)

`np.max` / `np.argmax` along the depth axis are embedded operationally as
left-to-right scans keeping the running maximum; the index is updated only
on a strict increase, so ties keep the first occurrence, which is numpy's
documented behaviour. -/

/-- Running-maximum scan: `scanMax b xs` is the maximum of `b` and the
elements of `xs`, computed left to right. -/
def scanMax : ℚ → List ℚ → ℚ
  | b, [] => b
  | b, x :: xs => scanMax (if b < x then x else b) xs

/-- Maximum of a sample list along the depth axis (`np.max(z, axis=0)` at
one pixel); `0` for the empty list, which never occurs in the program. -/
def npMaxL : List ℚ → ℚ
  | [] => 0
  | x :: xs => scanMax x xs

/-- Argmax scan: `b` is the best value so far, `bi` its index, `i` the index
of the next element; the index is updated only on a strict increase. -/
def scanArgmax : ℚ → ℕ → ℕ → List ℚ → ℕ
  | _, bi, _, [] => bi
  | b, bi, i, x :: xs =>
      if b < x then scanArgmax x i (i + 1) xs else scanArgmax b bi (i + 1) xs

/-- First index of the maximum of a sample list (`np.argmax(z, axis=0)` at
one pixel). -/
def npArgmaxL : List ℚ → ℕ
  | [] => 0
  | x :: xs => scanArgmax x 0 1 xs

/-- The depth-axis sample list of one pixel: the `nz` stacked frames, cast
from unsigned 8-bit to float (`z = z1.astype('float32')`, modelled exactly
in `ℚ`). -/
def samples {nz ny nx : ℕ} (z : Fin nz → Fin ny → Fin nx → ℕ)
    (y : Fin ny) (x : Fin nx) : List ℚ :=
  List.ofFn fun k : Fin nz => ((z k y x : ℕ) : ℚ)

/-- `zmax = np.max(z, axis=0)` (line 194). -/
def zmaxP {nz ny nx : ℕ} (z : Fin nz → Fin ny → Fin nx → ℕ)
    (y : Fin ny) (x : Fin nx) : ℚ :=
  npMaxL (samples z y x)

/-- `znum = np.argmax(z, axis=0)` (line 195). -/
def znumP {nz ny nx : ℕ} (z : Fin nz → Fin ny → Fin nx → ℕ)
    (y : Fin ny) (x : Fin nx) : ℕ :=
  npArgmaxL (samples z y x)

/-- `zs1 = np.sum(z, axis=0) - zmax` (line 196). -/
def zs1P {nz ny nx : ℕ} (z : Fin nz → Fin ny → Fin nx → ℕ)
    (y : Fin ny) (x : Fin nx) : ℚ :=
  (samples z y x).sum - zmaxP z y x

/-- `zs2 = np.sum(z*z, axis=0) - zmax*zmax` (line 197). -/
def zs2P {nz ny nx : ℕ} (z : Fin nz → Fin ny → Fin nx → ℕ)
    (y : Fin ny) (x : Fin nx) : ℚ :=
  ((samples z y x).map fun v => v * v).sum - zmaxP z y x * zmaxP z y x

/-- The divisor `float(nz-1)` of the trimmed mean (line 198). -/
def meanDenom (nz : ℕ) : ℚ := (nz : ℚ) - 1

/-- The divisor `float(nz-2)` of the trimmed variance (line 199). -/
def stdevDenom (nz : ℕ) : ℚ := (nz : ℚ) - 2

/-- `zavg = zs1/float(nz-1)` (line 198). -/
def zavgP {nz ny nx : ℕ} (z : Fin nz → Fin ny → Fin nx → ℕ)
    (y : Fin ny) (x : Fin nx) : ℚ :=
  zs1P z y x / meanDenom nz

/-- The radicand `(zs2 - zs1*zavg)/float(nz-2)` of `zstd` (line 199);
`zstd` itself is its square root. -/
def zstdSqP {nz ny nx : ℕ} (z : Fin nz → Fin ny → Fin nx → ℕ)
    (y : Fin ny) (x : Fin nx) : ℚ :=
  (zs2P z y x - zs1P z y x * zavgP z y x) / stdevDenom nz

/-! Naive reference statistics, stated the way the spec words them: remove
one occurrence of the per-pixel maximum, then take the plain mean and the
sample standard deviation of the remaining values. -/

/-- The sample list with one occurrence of its maximum removed. -/
def trimmedSamples (l : List ℚ) : List ℚ := l.erase (npMaxL l)

/-- Naive mean of a sample list. -/
def naiveMean (r : List ℚ) : ℚ := r.sum / (r.length : ℚ)

/-- Naive (Bessel-corrected) sample variance of a sample list. -/
def naiveVar (r : List ℚ) : ℚ :=
  ((r.map fun v => (v - naiveMean r) ^ 2).sum) / ((r.length : ℚ) - 1)

/-! ### Lemmas about the scans -/

theorem scanMax_le (xs : List ℚ) : ∀ b : ℚ, b ≤ scanMax b xs := by
  induction xs with
  | nil => intro b; simp [scanMax]
  | cons x xs ih =>
      intro b
      have h := ih (if b < x then x else b)
      have hb : b ≤ if b < x then x else b := by
        by_cases hlt : b < x <;> simp [hlt] <;> exact le_of_lt hlt
      exact le_trans hb h

theorem mem_le_scanMax (xs : List ℚ) :
    ∀ b v : ℚ, v ∈ xs → v ≤ scanMax b xs := by
  induction xs with
  | nil => intro b v hv; simp at hv
  | cons x xs ih =>
      intro b v hv
      rcases List.mem_cons.mp hv with rfl | hv
      · have hb : v ≤ if b < v then v else b := by
          by_cases hlt : b < v <;> simp [hlt]; exact le_of_not_lt hlt
        exact le_trans hb (scanMax_le xs _)
      · exact ih _ v hv

theorem scanMax_mem (xs : List ℚ) :
    ∀ b : ℚ, scanMax b xs = b ∨ scanMax b xs ∈ xs := by
  induction xs with
  | nil => intro b; left; rfl
  | cons x xs ih =>
      intro b
      by_cases hlt : b < x
      · rcases ih x with h | h
        · right; simp [scanMax, hlt, h]
        · right; simp [scanMax, hlt]; right; exact h
      · rcases ih b with h | h
        · left; simp [scanMax, hlt, h]
        · right; simp [scanMax, hlt]; right; exact h

theorem npMaxL_mem (l : List ℚ) (h : l ≠ []) : npMaxL l ∈ l := by
  cases l with
  | nil => exact absurd rfl h
  | cons x xs =>
      rcases scanMax_mem xs x with h' | h'
      · simp [npMaxL, h']
      · simp [npMaxL]; right; exact h'

theorem le_npMaxL (l : List ℚ) (v : ℚ) (hv : v ∈ l) : v ≤ npMaxL l := by
  cases l with
  | nil => simp at hv
  | cons x xs =>
      rcases List.mem_cons.mp hv with rfl | hv
      · exact scanMax_le xs v
      · exact mem_le_scanMax xs x v hv

theorem scanArgmax_spec (xs : List ℚ) :
    ∀ (b : ℚ) (bi i : ℕ),
      (scanArgmax b bi i xs = bi ∧ scanMax b xs = b) ∨
      (∃ j, j < xs.length ∧ scanArgmax b bi i xs = i + j ∧
        xs.getD j 0 = scanMax b xs ∧ b < scanMax b xs ∧
        ∀ k, k < j → xs.getD k 0 < scanMax b xs) := by
  induction xs with
  | nil => intro b bi i; left; exact ⟨rfl, rfl⟩
  | cons x xs ih =>
      intro b bi i
      by_cases hlt : b < x
      · rcases ih x i (i + 1) with ⟨hA, hM⟩ | ⟨j, hj, hA, hg, hbM, hk⟩
        · right
          refine ⟨0, by simp, ?_, ?_, ?_, ?_⟩
          · simpa [scanArgmax, hlt] using hA
          · simp [scanMax, hlt, hM]
          · simpa [scanMax, hlt, hM] using hlt
          · intro k hk; omega
        · right
          refine ⟨j + 1, by simpa using hj, ?_, ?_, ?_, ?_⟩
          · simp [scanArgmax, hlt, hA]; omega
          · simpa [scanMax, hlt] using hg
          · have : b < scanMax x xs := lt_trans hlt hbM
            simpa [scanMax, hlt] using this
          · intro k hkj
            cases k with
            | zero =>
                have : x < scanMax x xs := hbM
                simpa [scanMax, hlt] using this
            | succ k' =>
                have hk' : k' < j := by omega
                have := hk k' hk'
                simpa [scanMax, hlt] using this
      · rcases ih b bi (i + 1) with ⟨hA, hM⟩ | ⟨j, hj, hA, hg, hbM, hk⟩
        · left
          constructor
          · simpa [scanArgmax, hlt] using hA
          · simp [scanMax, hlt, hM]
        · right
          refine ⟨j + 1, by simpa using hj, ?_, ?_, ?_, ?_⟩
          · simp [scanArgmax, hlt, hA]; omega
          · simpa [scanMax, hlt] using hg
          · simpa [scanMax, hlt] using hbM
          · intro k hkj
            cases k with
            | zero =>
                have hxb : x ≤ b := le_of_not_lt hlt
                have : b < scanMax b xs := hbM
                have : x < scanMax b xs := lt_of_le_of_lt hxb this
                simpa [scanMax, hlt] using this
            | succ k' =>
                have hk' : k' < j := by omega
                have := hk k' hk'
                simpa [scanMax, hlt] using this

theorem npArgmaxL_spec (l : List ℚ) (h : l ≠ []) :
    npArgmaxL l < l.length ∧ l.getD (npArgmaxL l) 0 = npMaxL l ∧
      ∀ j, j < npArgmaxL l → l.getD j 0 < npMaxL l := by
  cases l with
  | nil => exact absurd rfl h
  | cons x xs =>
      rcases scanArgmax_spec xs x 0 1 with ⟨hA, hM⟩ | ⟨j, hj, hA, hg, hbM, hk⟩
      · refine ⟨?_, ?_, ?_⟩
        · simp [npArgmaxL, hA]
        · simp [npArgmaxL, npMaxL, hA, hM]
        · intro j hj
          simp [npArgmaxL, hA] at hj
      · refine ⟨?_, ?_, ?_⟩
        · simp [npArgmaxL, hA]; omega
        · show (x :: xs).getD (scanArgmax x 0 1 xs) 0 = scanMax x xs
          rw [hA, show (1 : ℕ) + j = j + 1 by omega, List.getD_cons_succ]
          exact hg
        · intro k hk'
          simp [npArgmaxL, hA] at hk'
          cases k with
          | zero => simpa [npMaxL] using hbM
          | succ k' =>
              have hkj : k' < j := by omega
              have := hk k' hkj
              simpa [npMaxL] using this

/-! ### Sample-list facts -/

theorem samples_length {nz ny nx : ℕ} (z : Fin nz → Fin ny → Fin nx → ℕ)
    (y : Fin ny) (x : Fin nx) : (samples z y x).length = nz := by
  simp [samples]

theorem samples_getD {nz ny nx : ℕ} (z : Fin nz → Fin ny → Fin nx → ℕ)
    (y : Fin ny) (x : Fin nx) (k : Fin nz) :
    (samples z y x).getD k 0 = ((z k y x : ℕ) : ℚ) := by
  rw [List.getD_eq_getElem _ _ (by rw [samples_length]; exact k.isLt)]
  simp [samples]

theorem samples_mem {nz ny nx : ℕ} (z : Fin nz → Fin ny → Fin nx → ℕ)
    (y : Fin ny) (x : Fin nx) (k : Fin nz) :
    ((z k y x : ℕ) : ℚ) ∈ samples z y x := by
  rw [samples, List.mem_ofFn]
  exact ⟨k, rfl⟩

/-- Expansion of the centred sum of squares used by the naive variance. -/
theorem sum_sq_dev (r : List ℚ) (μ : ℚ) :
    (r.map fun v => (v - μ) ^ 2).sum =
      (r.map fun v => v * v).sum - 2 * μ * r.sum + (r.length : ℚ) * μ ^ 2 := by
  induction r with
  | nil => simp
  | cons a r ih =>
      simp only [List.map_cons, List.sum_cons, List.length_cons, ih]
      push_cast
      ring

/-! ## Claim theorems: trimmed statistics and max/argmax -/

/-- C1: for every stack of depth at least 3, the trimmed-accumulation
formula of `compress` (lines 193-199) yields, at every pixel, exactly the
naive mean and (Bessel-corrected) standard deviation of the `nz - 1`
samples left after removing one occurrence of the per-pixel maximum; this
holds whether the maximum is unique or tied. The standard deviations agree
because their radicands agree. -/
theorem trimmedStats_eq_naive {nz ny nx : ℕ} (h3 : 3 ≤ nz)
    (z : Fin nz → Fin ny → Fin nx → ℕ) (y : Fin ny) (x : Fin nx) :
    zavgP z y x = naiveMean (trimmedSamples (samples z y x)) ∧
    zstdSqP z y x = naiveVar (trimmedSamples (samples z y x)) ∧
    Real.sqrt ((zstdSqP z y x : ℚ) : ℝ) =
      Real.sqrt ((naiveVar (trimmedSamples (samples z y x)) : ℚ) : ℝ) ∧
    (trimmedSamples (samples z y x)).length = nz - 1 := by
  have hlen : (samples z y x).length = nz := samples_length z y x
  have hne : samples z y x ≠ [] := by
    intro h
    rw [h] at hlen
    simp at hlen
    omega
  have hmem := npMaxL_mem _ hne
  have hperm : List.Perm (samples z y x)
      (npMaxL (samples z y x) :: trimmedSamples (samples z y x)) :=
    List.perm_cons_erase hmem
  have hrlen : (trimmedSamples (samples z y x)).length = nz - 1 := by
    rw [trimmedSamples, List.length_erase_of_mem hmem, hlen]
  have hsum : (samples z y x).sum =
      npMaxL (samples z y x) + (trimmedSamples (samples z y x)).sum := by
    simpa using hperm.sum_eq
  have hsq : ((samples z y x).map fun v => v * v).sum =
      npMaxL (samples z y x) * npMaxL (samples z y x) +
        ((trimmedSamples (samples z y x)).map fun v => v * v).sum := by
    simpa using (hperm.map fun v => v * v).sum_eq
  have hn1 : ((trimmedSamples (samples z y x)).length : ℚ) = (nz : ℚ) - 1 := by
    rw [hrlen, Nat.cast_sub (by omega : 1 ≤ nz)]
    norm_num
  have hn0 : ((nz : ℚ) - 1) ≠ 0 := by
    have : (3 : ℚ) ≤ (nz : ℚ) := by exact_mod_cast h3
    intro h
    linarith
  have hd0 : ((nz : ℚ) - 2) ≠ 0 := by
    have : (3 : ℚ) ≤ (nz : ℚ) := by exact_mod_cast h3
    intro h
    linarith
  have hmean : zavgP z y x = naiveMean (trimmedSamples (samples z y x)) := by
    rw [zavgP, zs1P, meanDenom, zmaxP, hsum, naiveMean, hn1]
    ring
  have hvar : zstdSqP z y x = naiveVar (trimmedSamples (samples z y x)) := by
    rw [zstdSqP, zs2P, zs1P, zavgP, zs1P, meanDenom, stdevDenom, zmaxP, hsum,
      hsq, naiveVar, sum_sq_dev, naiveMean, hn1]
    rw [show (nz : ℚ) - 1 - 1 = (nz : ℚ) - 2 by ring]
    field_simp [hn0, hd0]
    ring
  exact ⟨hmean, hvar, by rw [hvar], hrlen⟩

/-- Concrete 3-frame, 1 x 1 stack with a tied maximum (samples 2, 5, 5). -/
def stackW1 : Fin 3 → Fin 1 → Fin 1 → ℕ := fun k _ _ => if k = 0 then 2 else 5

theorem trimmedStats_eq_naive_witness :
    3 ≤ 3 ∧
    (zavgP stackW1 0 0 = naiveMean (trimmedSamples (samples stackW1 0 0)) ∧
    zstdSqP stackW1 0 0 = naiveVar (trimmedSamples (samples stackW1 0 0)) ∧
    Real.sqrt ((zstdSqP stackW1 0 0 : ℚ) : ℝ) =
      Real.sqrt ((naiveVar (trimmedSamples (samples stackW1 0 0)) : ℚ) : ℝ) ∧
    (trimmedSamples (samples stackW1 0 0)).length = 3 - 1) :=
  ⟨by norm_num, trimmedStats_eq_naive (by norm_num) stackW1 0 0⟩

/-- C2: for every stack of depth at least 3, the `zmax` plane is, at every
pixel, the maximum of the depth samples (an upper bound that is attained),
and the `znum` plane is the 0-based depth index of that maximum, ties going
to the first occurrence: every strictly earlier index holds a strictly
smaller sample. -/
theorem maxArgmax_bruteforce {nz ny nx : ℕ} (h3 : 3 ≤ nz)
    (z : Fin nz → Fin ny → Fin nx → ℕ) (y : Fin ny) (x : Fin nx) :
    (∀ k : Fin nz, ((z k y x : ℕ) : ℚ) ≤ zmaxP z y x) ∧
    (∃ k : Fin nz, ((z k y x : ℕ) : ℚ) = zmaxP z y x) ∧
    znumP z y x < nz ∧
    (samples z y x).getD (znumP z y x) 0 = zmaxP z y x ∧
    (∀ j, j < znumP z y x → (samples z y x).getD j 0 < zmaxP z y x) ∧
    (∀ k : Fin nz, (samples z y x).getD k 0 = ((z k y x : ℕ) : ℚ)) := by
  have hlen : (samples z y x).length = nz := samples_length z y x
  have hne : samples z y x ≠ [] := by
    intro h
    rw [h] at hlen
    simp at hlen
    omega
  obtain ⟨hA, hget, hfirst⟩ := npArgmaxL_spec _ hne
  refine ⟨?_, ?_, ?_, hget, hfirst, fun k => samples_getD z y x k⟩
  · intro k
    exact le_npMaxL _ _ (samples_mem z y x k)
  · have := npMaxL_mem _ hne
    rw [samples, List.mem_ofFn] at this
    obtain ⟨k, hk⟩ := this
    exact ⟨k, hk⟩
  · rw [hlen] at hA
    exact hA

theorem maxArgmax_bruteforce_witness :
    3 ≤ 3 ∧
    ((∀ k : Fin 3, ((stackW1 k 0 0 : ℕ) : ℚ) ≤ zmaxP stackW1 0 0) ∧
    (∃ k : Fin 3, ((stackW1 k 0 0 : ℕ) : ℚ) = zmaxP stackW1 0 0) ∧
    znumP stackW1 0 0 < 3 ∧
    (samples stackW1 0 0).getD (znumP stackW1 0 0) 0 = zmaxP stackW1 0 0 ∧
    (∀ j, j < znumP stackW1 0 0 →
      (samples stackW1 0 0).getD j 0 < zmaxP stackW1 0 0) ∧
    (∀ k : Fin 3, (samples stackW1 0 0).getD k 0 = ((stackW1 k 0 0 : ℕ) : ℚ))) :=
  ⟨by norm_num, maxArgmax_bruteforce (by norm_num) stackW1 0 0⟩

/-! ## Vertical flip and emitted plane order (acquire.py lines 201-205, 246)

`np.flipud` reverses the row order of a plane; each plane is cast to
float32 (modelled as the exact embedding into `ℝ`, under which the uint8
maxima, the rational mean/stdev values and the small integer argmax
indices are all representable) and flipped before being stacked, in the
fixed order `[zavg, zstd, zmax, znum]`, into the emitted data array. -/

/-- Row-reversal of a plane: row `y` of the result is row `ny - 1 - y` of
the argument (`np.flipud`). -/
def flipud {ny nx : ℕ} {α : Type} (p : Fin ny → Fin nx → α) :
    Fin ny → Fin nx → α :=
  fun y x => p y.rev x

/-- Pointwise cast of a rational-valued plane to the real carrier used for
the emitted float32 data. -/
noncomputable def ratPlaneR {ny nx : ℕ} (p : Fin ny → Fin nx → ℚ) :
    Fin ny → Fin nx → ℝ :=
  fun y x => ((p y x : ℚ) : ℝ)

/-- Pointwise cast of the integer argmax plane to the real carrier used for
the emitted float32 data. -/
def natPlaneR {ny nx : ℕ} (p : Fin ny → Fin nx → ℕ) :
    Fin ny → Fin nx → ℝ :=
  fun y x => ((p y x : ℕ) : ℝ)

/-- The `zstd` plane: square root of the trimmed-variance radicand
(line 199). -/
noncomputable def zstdPlane {nz ny nx : ℕ} (z : Fin nz → Fin ny → Fin nx → ℕ) :
    Fin ny → Fin nx → ℝ :=
  fun y x => Real.sqrt ((zstdSqP z y x : ℚ) : ℝ)

/-- The four planes of the emitted record, each cast and flipped, stacked
in the order `np.array([zavg, zstd, zmax, znum])` of line 246. -/
noncomputable def fitsData {nz ny nx : ℕ} (z : Fin nz → Fin ny → Fin nx → ℕ) :
    List (Fin ny → Fin nx → ℝ) :=
  [flipud (ratPlaneR (zavgP z)), flipud (zstdPlane z),
    flipud (ratPlaneR (zmaxP z)), flipud (natPlaneR (znumP z))]

/-- Plane `i` of the emitted data array. -/
noncomputable def fitsPlane {nz ny nx : ℕ} (z : Fin nz → Fin ny → Fin nx → ℕ)
    (i : ℕ) : Fin ny → Fin nx → ℝ :=
  (fitsData z).getD i fun _ _ => 0

/-- C6: every one of the four emitted planes is vertically mirrored: its
row `y` equals row `ny - 1 - y` of the corresponding plane computed from
the stack (which is in the row order of the input frames). -/
theorem emitted_planes_flipped {nz ny nx : ℕ}
    (z : Fin nz → Fin ny → Fin nx → ℕ) (y : Fin ny) (x : Fin nx) :
    fitsPlane z 0 y x = ((zavgP z y.rev x : ℚ) : ℝ) ∧
    fitsPlane z 1 y x = Real.sqrt ((zstdSqP z y.rev x : ℚ) : ℝ) ∧
    fitsPlane z 2 y x = ((zmaxP z y.rev x : ℚ) : ℝ) ∧
    fitsPlane z 3 y x = ((znumP z y.rev x : ℕ) : ℝ) ∧
    (y.rev : ℕ) = ny - 1 - (y : ℕ) := by
  refine ⟨rfl, rfl, rfl, rfl, ?_⟩
  rw [Fin.val_rev]
  omega

/-- C10: the emitted data array stacks exactly four planes in the fixed
order trimmed mean, trimmed stdev, maximum, argmax, and the argmax plane
— like the others — is emitted as floating-point data: each of its entries
is the cast of the natural-number argmax index. -/
theorem fits_plane_order_cast {nz ny nx : ℕ}
    (z : Fin nz → Fin ny → Fin nx → ℕ) :
    (fitsData z).length = 4 ∧
    fitsPlane z 0 = flipud (ratPlaneR (zavgP z)) ∧
    fitsPlane z 1 = flipud (zstdPlane z) ∧
    fitsPlane z 2 = flipud (ratPlaneR (zmaxP z)) ∧
    fitsPlane z 3 = flipud (natPlaneR (znumP z)) ∧
    ∀ (y : Fin ny) (x : Fin nx),
      ∃ n : ℕ, fitsPlane z 3 y x = (n : ℝ) ∧ n = znumP z y.rev x :=
  ⟨rfl, rfl, rfl, rfl, rfl, fun y x => ⟨znumP z y.rev x, rfl, rfl⟩⟩

/-! ## The acquirer's fill loop (acquire.py lines 36-63)

`capture_cv2` runs `for i in range(nz)`, reads one frame per iteration and
stores it at slot `i` only when the read succeeded (`if res is True`); a
failed read is skipped but the loop variable advances regardless. The loop
is embedded as a fold over `range nz` on the slot assignment, with the
per-iteration read outcome given as an `Option`. -/

/-- One iteration of the fill loop: on a successful read the frame is
stored at slot `i`, on a failed read nothing is stored. -/
def fillStep {α : Type} (reads : ℕ → Option α) (z : ℕ → α) (i : ℕ) : ℕ → α :=
  match reads i with
  | some f => Function.update z i f
  | none => z

/-- The whole fill loop `for i in range(nz)` over an initial slot
assignment `z` (the buffer contents left over from the previous cycle). -/
def fillLoop {α : Type} (reads : ℕ → Option α) (nz : ℕ) (z : ℕ → α) : ℕ → α :=
  (List.range nz).foldl (fillStep reads) z

theorem fillLoop_apply {α : Type} (reads : ℕ → Option α) (z0 : ℕ → α) :
    ∀ nz j, fillLoop reads nz z0 j =
      if j < nz then (reads j).getD (z0 j) else z0 j := by
  intro nz
  induction nz with
  | zero => intro j; simp [fillLoop]
  | succ n ih =>
      intro j
      have hstep : fillLoop reads (n + 1) z0 =
          fillStep reads (fillLoop reads n z0) n := by
        rw [fillLoop, List.range_succ, List.foldl_append]
        rfl
      rw [hstep, fillStep]
      cases hr : reads n with
      | none =>
          show fillLoop reads n z0 j = _
          rw [ih j]
          by_cases hjn : j = n
          · subst hjn
            simp [hr]
          · by_cases hj : j < n
            · have h1 : j < n + 1 := by omega
              simp [hj, h1]
            · have h1 : ¬ j < n + 1 := by omega
              simp [hj, h1]
      | some f =>
          show Function.update (fillLoop reads n z0) n f j = _
          rw [Function.update_apply]
          by_cases hjn : j = n
          · subst hjn
            simp [hr]
          · rw [if_neg hjn, ih j]
            by_cases hj : j < n
            · have h1 : j < n + 1 := by omega
              simp [hj, h1]
            · have h1 : ¬ j < n + 1 := by omega
              simp [hj, h1]

/-- Read outcomes with a failure at index 0 and a success (frame value 7)
at index 1, over a 2-frame cycle. -/
def dropReads : ℕ → Option ℕ := fun i => if i = 1 then some 7 else none

/-- Stale buffer contents from the previous cycle: every slot holds 3. -/
def staleInit : ℕ → ℕ := fun _ => 3

/-- C3 counterexample: with a failed read at index 0 and the next
successful frame (value 7) at index 1, the fill loop leaves slot 0 at its
stale previous value 3 and stores the frame at slot 1 — the write index
advanced past the failed slot, contradicting the claim that the next
successful frame is stored at the same slot position. -/
theorem fillLoop_drop_counterexample :
    fillLoop dropReads 2 staleInit 0 = 3 ∧
    fillLoop dropReads 2 staleInit 1 = 7 ∧
    fillLoop dropReads 2 staleInit 0 ≠ 7 := by decide

/-- C3 amended: when the read at index `i` fails, the loop advances
anyway — slot `i` keeps its previous (stale) content, and a successful
read at index `i` stores its frame at slot `i` itself; a completed cycle
therefore need not consist of freshly acquired frames. -/
theorem fillLoop_slot_semantics {α : Type} (reads : ℕ → Option α)
    (z0 : ℕ → α) (nz i : ℕ) (h : i < nz) :
    fillLoop reads nz z0 i = (reads i).getD (z0 i) ∧
    (reads i = none → fillLoop reads nz z0 i = z0 i) := by
  constructor
  · rw [fillLoop_apply, if_pos h]
  · intro hn
    rw [fillLoop_apply, if_pos h, hn]
    rfl

theorem fillLoop_slot_semantics_witness :
    1 < 2 ∧
    (fillLoop dropReads 2 staleInit 1 = (dropReads 1).getD (staleInit 1) ∧
    (dropReads 1 = none → fillLoop dropReads 2 staleInit 1 = staleInit 1)) :=
  ⟨by decide, fillLoop_slot_semantics dropReads staleInit 2 1 (by decide)⟩

/-! ## Frame timestamps (acquire.py lines 36-44 and 136-144)

Both capture loops surround the frame request with two clock reads,
`t0 = time.time()` before and `time.time()` after, and record
`t = (time.time() + t0) / 2.0` alongside the frame. -/

/-- The recorded timestamp `(after + before) / 2` of one frame
(lines 38-44). -/
def frameTimestamp (t0 t1 : ℚ) : ℚ := (t1 + t0) / 2

/-- Read outcomes paired with their recorded timestamps, as stored by the
fill loop into the frame and timestamp arrays. -/
def readsWithTime {α : Type} (res : ℕ → Option α) (issue recv : ℕ → ℚ) :
    ℕ → Option (α × ℚ) :=
  fun i => (res i).map fun f => (f, frameTimestamp (issue i) (recv i))

/-- C9: every frame the acquirer stores carries the timestamp
`(issue + receive) / 2`, the arithmetic midpoint of the instant the frame
request was issued and the instant the frame was received; the midpoint
property is made explicit by the symmetric-latency equation. -/
theorem stored_timestamp_midpoint {α : Type} (res : ℕ → Option α)
    (issue recv : ℕ → ℚ) (z0 : ℕ → α × ℚ) (nz i : ℕ) (f : α)
    (h : i < nz) (hres : res i = some f) :
    fillLoop (readsWithTime res issue recv) nz z0 i =
      (f, (issue i + recv i) / 2) ∧
    frameTimestamp (issue i) (recv i) - issue i =
      recv i - frameTimestamp (issue i) (recv i) := by
  constructor
  · rw [fillLoop_apply, if_pos h]
    show (Option.map (fun g => (g, frameTimestamp (issue i) (recv i)))
      (res i)).getD (z0 i) = _
    rw [hres]
    show (f, frameTimestamp (issue i) (recv i)) = _
    rw [frameTimestamp, Prod.mk.injEq]
    exact ⟨rfl, by ring⟩
  · rw [frameTimestamp]
    ring

/-- Always-successful reads with frame value 5. -/
def resW : ℕ → Option ℕ := fun _ => some 5

/-- Request-issued instants, all at time 10. -/
def issueW : ℕ → ℚ := fun _ => 10

/-- Frame-received instants, all at time 20. -/
def recvW : ℕ → ℚ := fun _ => 20

/-- Initial frame/timestamp slot contents. -/
def zt0W : ℕ → ℕ × ℚ := fun _ => (0, 0)

theorem stored_timestamp_midpoint_witness :
    1 < 3 ∧ resW 1 = some 5 ∧
    (fillLoop (readsWithTime resW issueW recvW) 3 zt0W 1 =
      (5, (issueW 1 + recvW 1) / 2) ∧
    frameTimestamp (issueW 1) (recvW 1) - issueW 1 =
      recvW 1 - frameTimestamp (issueW 1) (recvW 1)) :=
  ⟨by decide, rfl,
    stored_timestamp_midpoint resW issueW recvW zt0W 3 1 5 (by decide) rfl⟩

/-! ## The reducer's cycle loop (acquire.py lines 173-256)

`compress` runs `while True`: wait for a ready stack, compute and flip the
planes, write the record (`hdu.writeto`, which raises on failure with no
surrounding handler), and break once the processed stack's last timestamp
exceeds the end time. The loop is embedded over the sequence of stacks the
wait would deliver, each paired with whether its emission succeeds; a stack
is represented by its timestamp list, which is all the loop control reads. -/

/-- The last timestamp `t[-1]` of a stack. -/
def lastT (t : List ℚ) : ℚ := t.getLastD 0

/-- How the reducer's loop ends: by its own break, or by an uncaught
emission exception. -/
inductive RunExit where
  | finished
  | crashed
deriving DecidableEq

/-- The reducer's loop over the delivered stacks: each cycle emits the
record (a `false` emission flag models `hdu.writeto` raising, which aborts
the loop), then breaks if the stack's last timestamp exceeds `tend`.
Returns the successfully emitted stacks in order and how the loop ended;
an exhausted input list stands for a run cut off externally. -/
def compressRun (tend : ℚ) : List (List ℚ × Bool) → List (List ℚ) × RunExit
  | [] => ([], RunExit.finished)
  | (s, emitOk) :: rest =>
      if emitOk then
        if tend < lastT s then ([s], RunExit.finished)
        else
          ((compressRun tend rest).1.cons s, (compressRun tend rest).2)
      else ([], RunExit.crashed)

/-- The stacks the reducer processes when every emission succeeds. -/
def reducerProcessed (tend : ℚ) (sts : List (List ℚ)) : List (List ℚ) :=
  (compressRun tend (sts.map fun s => (s, true))).1

/-- C5 counterexample: with end time 100, a first stack whose emission
fails and a second stack with last timestamp 4 ≤ 100, the loop crashes on
the first cycle and the second ready stack is never processed — the
failure is not confined to its own cycle. -/
theorem emit_failure_counterexample :
    compressRun 100 [([1, 2], false), ([3, 4], true)] =
      ([], RunExit.crashed) ∧
    [3, 4] ∉ (compressRun 100 [([1, 2], false), ([3, 4], true)]).1 := by
  decide

/-- C5 amended: an emission failure is an uncaught exception: the
reducer's loop terminates at that cycle and no later ready stack is
processed, whatever the end time and whatever stacks would have followed. -/
theorem emit_failure_stops_loop (tend : ℚ) (s : List ℚ)
    (rest : List (List ℚ × Bool)) :
    compressRun tend ((s, false) :: rest) = ([], RunExit.crashed) := by
  rfl

theorem compressRun_all_le (tend : ℚ) :
    ∀ sts : List (List ℚ), (∀ s ∈ sts, lastT s ≤ tend) →
      compressRun tend (sts.map fun s => (s, true)) =
        (sts, RunExit.finished) := by
  intro sts
  induction sts with
  | nil => intro h; rfl
  | cons a l ih =>
      intro h
      have ha : lastT a ≤ tend := h a (List.mem_cons_self a l)
      have hl : ∀ s ∈ l, lastT s ≤ tend := fun s hs =>
        h s (List.mem_cons_of_mem a hs)
      simp only [List.map_cons, compressRun, if_pos rfl,
        if_neg (not_lt.mpr ha), ih hl]
      rfl

/-- C8 counterexample: with end time 50, the loop terminates after a
cycle whose stack has last timestamp 3 ≤ 50 — its emission raised — and
the pending stack with last timestamp 7 ≤ 50 is never processed: the loop
does not continue to the next cycle for a non-exceeding stack, and it
terminated without ever processing a stack whose last timestamp exceeds
the end time. -/
theorem reducer_early_stop_counterexample :
    compressRun 50 [([1, 3], false), ([4, 7], true)] =
      ([], RunExit.crashed) ∧
    lastT [1, 3] ≤ 50 ∧ lastT [4, 7] ≤ 50 ∧
    [4, 7] ∉ (compressRun 50 [([1, 3], false), ([4, 7], true)]).1 := by
  decide

/-- C8 amended: provided every emission succeeds, the reducer's loop
terminates exactly at the first stack whose last timestamp exceeds the
end time: all earlier stacks are processed and the loop continues past
each of them, the exceeding stack is still processed (emitted) and the
loop then exits, and nothing after it is processed. (Without the proviso
an emission failure terminates the loop early — see the counterexample.) -/
theorem reducer_termination (tend : ℚ) (sts : List (List ℚ)) (i : ℕ)
    (hi : i < sts.length)
    (hbefore : ∀ j, j < i → lastT (sts.getD j []) ≤ tend)
    (hex : tend < lastT (sts.getD i [])) :
    reducerProcessed tend sts = sts.take (i + 1) ∧
    (∀ s ∈ (reducerProcessed tend sts).dropLast, lastT s ≤ tend) ∧
    (compressRun tend (sts.map fun s => (s, true))).2 =
      RunExit.finished := by
  induction sts generalizing i with
  | nil => simp at hi
  | cons a l ih =>
      cases i with
      | zero =>
          have hexa : tend < lastT a := hex
          refine ⟨?_, ?_, ?_⟩
          · simp only [reducerProcessed, List.map_cons, compressRun,
              if_pos rfl, if_pos hexa]
            rfl
          · simp only [reducerProcessed, List.map_cons, compressRun,
              if_pos rfl, if_pos hexa]
            intro s hs
            simp at hs
          · simp only [List.map_cons, compressRun, if_pos rfl, if_pos hexa]
            rfl
      | succ i' =>
          have ha : lastT a ≤ tend := hbefore 0 (by omega)
          have hi' : i' < l.length := by simpa using hi
          have hbefore' : ∀ j, j < i' → lastT (l.getD j []) ≤ tend := by
            intro j hj
            exact hbefore (j + 1) (by omega)
          have hex' : tend < lastT (l.getD i' []) := hex
          obtain ⟨h1, h2, h3⟩ := ih i' hi' hbefore' hex'
          have hstep : reducerProcessed tend (a :: l) =
              a :: reducerProcessed tend l := by
            simp only [reducerProcessed, List.map_cons, compressRun,
              if_pos rfl, if_neg (not_lt.mpr ha)]
            rfl
          refine ⟨?_, ?_, ?_⟩
          · rw [hstep, h1, List.take_succ_cons]
          · rw [hstep]
            have hne : reducerProcessed tend l ≠ [] := by
              rw [h1]
              intro hemp
              have hlen : (List.take (i' + 1) l).length = 0 := by
                rw [hemp]
                rfl
              rw [List.length_take] at hlen
              omega
            rw [List.dropLast_cons_of_ne_nil hne]
            intro s hs
            rcases List.mem_cons.mp hs with rfl | hs
            · exact ha
            · exact h2 s hs
          · simp only [List.map_cons, compressRun, if_pos rfl,
              if_neg (not_lt.mpr ha)]
            exact h3

theorem reducer_termination_witness :
    1 < ([[1, 5], [6, 12], [13, 20]] : List (List ℚ)).length ∧
    (∀ j, j < 1 →
      lastT (([[1, 5], [6, 12], [13, 20]] : List (List ℚ)).getD j []) ≤
        (10 : ℚ)) ∧
    (10 : ℚ) < lastT (([[1, 5], [6, 12], [13, 20]] : List (List ℚ)).getD 1 []) ∧
    (reducerProcessed 10 [[1, 5], [6, 12], [13, 20]] =
      ([[1, 5], [6, 12], [13, 20]] : List (List ℚ)).take 2 ∧
    (∀ s ∈ (reducerProcessed 10 [[1, 5], [6, 12], [13, 20]]).dropLast,
      lastT s ≤ (10 : ℚ)) ∧
    (compressRun 10
      (([[1, 5], [6, 12], [13, 20]] : List (List ℚ)).map fun s => (s, true))).2 =
      RunExit.finished) := by
  refine ⟨by decide, ?_, by decide, ?_⟩
  · intro j hj
    have hj0 : j = 0 := by omega
    subst hj0
    decide
  · exact reducer_termination 10 [[1, 5], [6, 12], [13, 20]] 1 (by decide)
      (fun j hj => by
        have hj0 : j = 0 := Nat.lt_one_iff.mp hj
        subst hj0
        decide)
      (by decide)

/-! ## Startup settings (acquire.py lines 372-414)

The `__main__` block reads `nx`, `ny` and `nframes` from the configuration
and passes them straight to both worker processes: there is no conditional
on `nframes` anywhere between the read and the process construction. The
result type is `Except` so that the presence or absence of a startup
rejection is expressible; the code's path never produces an error. -/

/-- The camera settings the startup reads (lines 373-375). -/
structure AcqConfig where
  nx : ℕ
  ny : ℕ
  nframes : ℕ
deriving DecidableEq

/-- The frames-per-stack argument handed to each of the two worker
processes at lines 398-410. -/
structure LaunchPlan where
  compressFrames : ℕ
  captureFrames : ℕ
deriving DecidableEq

/-- A configuration rejection at startup, as the spec describes it; the
code has no path producing one. -/
inductive ConfigError where
  | badDepth
deriving DecidableEq

/-- The startup path from settings read-out to process construction:
`nz = cfg.getint(camera_type, 'nframes')` is passed unchanged to
`compress` and to the capture worker, with no validation of any kind. -/
def mainStartup (cfg : AcqConfig) : Except ConfigError LaunchPlan :=
  Except.ok ⟨cfg.nframes, cfg.nframes⟩

/-- C4 counterexample: a configuration with `nframes = 2` is accepted at
startup and `compress` is launched with depth 2, for which the stdev
divisor `float(nz-2)` is exactly zero — the statistics computation is
reached with depth below 3 rather than rejected beforehand. -/
theorem startup_accepts_depth_two :
    mainStartup ⟨720, 576, 2⟩ = Except.ok ⟨2, 2⟩ ∧
    stdevDenom 2 = 0 ∧ meanDenom 2 = 1 := by
  refine ⟨rfl, ?_, ?_⟩ <;> norm_num [stdevDenom, meanDenom]

/-- C4 amended: the startup performs no validation of the frames-per-stack
setting: every configuration, whatever its depth, is accepted and both
workers are launched with that depth, so the statistics divisors
`nz - 1` and `nz - 2` are whatever the configuration dictates, including
zero at depth 2. -/
theorem startup_no_depth_validation (cfg : AcqConfig) :
    mainStartup cfg = Except.ok ⟨cfg.nframes, cfg.nframes⟩ ∧
    (mainStartup cfg).isOk = true ∧
    stdevDenom cfg.nframes = (cfg.nframes : ℚ) - 2 :=
  ⟨rfl, rfl, rfl⟩

theorem startup_no_depth_validation_witness :
    mainStartup ⟨640, 480, 2⟩ = Except.ok ⟨2, 2⟩ ∧
    (mainStartup ⟨640, 480, 2⟩).isOk = true ∧
    stdevDenom (AcqConfig.mk 640 480 2).nframes =
      ((AcqConfig.mk 640 480 2).nframes : ℚ) - 2 :=
  startup_no_depth_validation ⟨640, 480, 2⟩

/-! ## The double-buffer handoff (acquire.py lines 36-72 and 174-191)

The two workers share only the integer flag `buf.value` (0 at start). The
capture loop fills the active stack with `for i in range(nz)`, then sets
`buf.value` to 1 or 2 according to its `first` flag and flips `first`.
The compress loop keeps `process_buf` (initially 1) and reads the shared
flag in two separate places each cycle: the poll
`while buf.value != process_buf: time.sleep(1.0)` at line 180, and the
dispatch `if buf.value == 1: ... elif buf.value == 2: ...` at lines
184-191, which reads `buf.value` again to decide which stack to consume.
The embedding keeps these as two separate reducer steps (phase recorded
in `redWaiting`), so a capture-side mark landing between the two reads is
a representable interleaving. `marked` and `consumed` are ghost histories
of the flag values the capture loop published and of the slots the
compress loop consumed. -/

/-- The shared and per-worker control state of the handoff protocol:
`bufValue` is `buf.value`, `first` and `fillIdx` are the capture loop's
flag and loop index, `processBuf` is the compress loop's expectation,
`redWaiting` is true while the compress loop is inside the poll of
line 180 and false between poll exit and the dispatch of lines 184-191;
`marked` and `consumed` record the published and the consumed slots, in
order. -/
structure PipeState where
  bufValue : ℕ
  first : Bool
  fillIdx : ℕ
  processBuf : ℕ
  redWaiting : Bool
  consumed : List ℕ
  marked : List ℕ
deriving DecidableEq

/-- Start of the run: `buf.value = 0`, `first = True`, `process_buf = 1`,
the compress loop entering its poll, no history. -/
def initPipe : PipeState := ⟨0, true, 0, 1, true, [], []⟩

/-- Which worker acts at a scheduling step. -/
inductive Worker where
  | acq
  | red
deriving DecidableEq

/-- One step of the capture loop: while the fill index is below `nz` it
runs one iteration of the fill loop (lines 36-63, storing a frame only
when its read succeeds); once all `nz` iterations are done it sets the
flag to the slot just filled, flips `first` and restarts the fill
(lines 65-72). -/
def stepAcq (nz : ℕ) (s : PipeState) : PipeState :=
  if s.fillIdx < nz then
    ⟨s.bufValue, s.first, s.fillIdx + 1, s.processBuf, s.redWaiting,
      s.consumed, s.marked⟩
  else
    ⟨if s.first then 1 else 2, !s.first, 0, s.processBuf, s.redWaiting,
      s.consumed, s.marked ++ [if s.first then 1 else 2]⟩

/-- One step of the compress loop. While `redWaiting`, the step is one
check of the poll `while buf.value != process_buf` (line 180): on a match
the poll exits, otherwise the step is the bounded `time.sleep(1.0)` and
changes nothing. Out of the poll, the step is the `if`/`elif` dispatch of
lines 184-191, which reads `buf.value` a second time: the slot consumed
is whichever this re-read names — not necessarily the one the poll saw —
and `process_buf` flips away from it. (The final branch, a flag that is
neither 1 nor 2 at dispatch, is unreachable: the poll only exits on a
match with `process_buf`, which is always 1 or 2.) -/
def stepRed (s : PipeState) : PipeState :=
  if s.redWaiting then
    if s.bufValue = s.processBuf then
      ⟨s.bufValue, s.first, s.fillIdx, s.processBuf, false,
        s.consumed, s.marked⟩
    else s
  else
    if s.bufValue = 1 then
      ⟨s.bufValue, s.first, s.fillIdx, 2, true, s.consumed ++ [1], s.marked⟩
    else if s.bufValue = 2 then
      ⟨s.bufValue, s.first, s.fillIdx, 1, true, s.consumed ++ [2], s.marked⟩
    else s

/-- The run of the protocol under a worker schedule. -/
def runPipe (nz : ℕ) (ws : List Worker) : PipeState :=
  ws.foldl
    (fun s w => match w with | Worker.acq => stepAcq nz s | Worker.red => stepRed s)
    initPipe

/-- The slot published at cycle `k` under strict alternation starting at
slot 1. -/
def altSlot (k : ℕ) : ℕ := if k % 2 = 0 then 1 else 2

/-- The strictly alternating slot sequence 1, 2, 1, 2, ... -/
def altList (n : ℕ) : List ℕ := (List.range n).map altSlot

theorem altList_succ (n : ℕ) : altList (n + 1) = altList n ++ [altSlot n] := by
  rw [altList, List.range_succ, List.map_append]
  rfl

theorem altSlot_ne_succ (n : ℕ) : altSlot (n + 1) ≠ altSlot n := by
  by_cases h : n % 2 = 0
  · have h1 : (n + 1) % 2 = 1 := by omega
    simp [altSlot, h, h1]
  · have h1 : (n + 1) % 2 = 0 := by omega
    simp [altSlot, h, h1]

theorem altList_getD (n i : ℕ) (hi : i < n) :
    (altList n).getD i 0 = altSlot i := by
  rw [altList, List.getD_eq_getElem _ _ (by simpa using hi)]
  simp

/-- The protocol invariant: the published slots are exactly the
alternating sequence (and the next mark continues it), the fill index
never passes `nz`, the reducer's expectation is always the complement of
the last consumed slot, and every consumed slot names one of the two
stacks. -/
def PipeInv (nz : ℕ) (s : PipeState) : Prop :=
  s.marked = altList s.marked.length ∧
  (if s.first then 1 else 2) = altSlot s.marked.length ∧
  s.fillIdx ≤ nz ∧
  s.processBuf = (if s.consumed.getLastD 0 = 1 then 2 else 1) ∧
  ∀ v ∈ s.consumed, v = 1 ∨ v = 2

theorem stepAcq_inv (nz : ℕ) (s : PipeState) (h : PipeInv nz s) :
    PipeInv nz (stepAcq nz s) := by
  obtain ⟨h1, h2, h3, h4, h5⟩ := h
  rw [stepAcq]
  by_cases hf : s.fillIdx < nz
  · rw [if_pos hf]
    exact ⟨h1, h2, show s.fillIdx + 1 ≤ nz by omega, h4, h5⟩
  · rw [if_neg hf]
    refine ⟨?_, ?_, Nat.zero_le nz, h4, h5⟩
    · show s.marked ++ [if s.first then 1 else 2] =
        altList (s.marked ++ [if s.first then 1 else 2]).length
      conv_rhs => rw [List.length_append, List.length_singleton, altList_succ]
      conv_lhs => rw [h1]
      conv_lhs => rw [h2]
    · show (if !s.first then 1 else 2) =
        altSlot (s.marked ++ [if s.first then 1 else 2]).length
      rw [List.length_append, List.length_singleton]
      by_cases hfst : s.first
      · have hn : s.marked.length % 2 = 0 := by
          by_contra hodd
          rw [if_pos hfst, altSlot, if_neg hodd] at h2
          omega
        rw [altSlot, if_neg (show ¬ (s.marked.length + 1) % 2 = 0 by omega)]
        simp [hfst]
      · have hn : ¬ s.marked.length % 2 = 0 := by
          intro he
          rw [if_neg hfst, altSlot, if_pos he] at h2
          omega
        rw [altSlot, if_pos (show (s.marked.length + 1) % 2 = 0 by omega)]
        simp [hfst]

theorem stepRed_inv (nz : ℕ) (s : PipeState) (h : PipeInv nz s) :
    PipeInv nz (stepRed s) := by
  obtain ⟨h1, h2, h3, h4, h5⟩ := h
  rw [stepRed]
  by_cases hw : s.redWaiting
  · rw [if_pos hw]
    by_cases hc : s.bufValue = s.processBuf
    · rw [if_pos hc]
      exact ⟨h1, h2, h3, h4, h5⟩
    · rw [if_neg hc]
      exact ⟨h1, h2, h3, h4, h5⟩
  · rw [if_neg hw]
    by_cases hb1 : s.bufValue = 1
    · rw [if_pos hb1]
      refine ⟨h1, h2, h3, ?_, ?_⟩
      · show (2 : ℕ) = if (s.consumed ++ [1]).getLastD 0 = 1 then 2 else 1
        simp
      · intro v hv
        rcases List.mem_append.mp hv with hv | hv
        · exact h5 v hv
        · left
          simpa using hv
    · rw [if_neg hb1]
      by_cases hb2 : s.bufValue = 2
      · rw [if_pos hb2]
        refine ⟨h1, h2, h3, ?_, ?_⟩
        · show (1 : ℕ) = if (s.consumed ++ [2]).getLastD 0 = 1 then 2 else 1
          simp
        · intro v hv
          rcases List.mem_append.mp hv with hv | hv
          · exact h5 v hv
          · right
            simpa using hv
      · rw [if_neg hb2]
        exact ⟨h1, h2, h3, h4, h5⟩

theorem runPipe_inv (nz : ℕ) (ws : List Worker) :
    PipeInv nz (runPipe nz ws) := by
  have hgen : ∀ (l : List Worker) (s : PipeState), PipeInv nz s →
      PipeInv nz (l.foldl
        (fun s w => match w with
          | Worker.acq => stepAcq nz s
          | Worker.red => stepRed s) s) := by
    intro l
    induction l with
    | nil => intro s hs; exact hs
    | cons w l ih =>
        intro s hs
        cases w with
        | acq => exact ih _ (stepAcq_inv nz s hs)
        | red => exact ih _ (stepRed_inv nz s hs)
  refine hgen ws initPipe ⟨rfl, rfl, Nat.zero_le nz, rfl, ?_⟩
  intro v hv
  exact absurd hv (List.not_mem_nil v)

/-- A schedule (stack depth 1) that exhibits the window between the
compress loop's two reads of the shared flag: after each poll exit the
capture worker completes a whole further fill-and-mark before the
dispatch re-reads the flag. -/
def wsTOCTOU : List Worker :=
  [Worker.acq, Worker.acq, Worker.red, Worker.acq, Worker.acq, Worker.red,
    Worker.acq, Worker.acq, Worker.red, Worker.acq, Worker.acq, Worker.red]

/-- C7 counterexample: under `wsTOCTOU` the compress loop consumes slot 2
twice in a row (its poll exits on flag 1, the capture worker marks slot 2
before the dispatch re-reads the flag, and this repeats), so the consumed
slots do not strictly alternate between the two stacks as the claim
states. -/
theorem handoff_double_consume_counterexample :
    (runPipe 1 wsTOCTOU).consumed = [2, 2] ∧
    (runPipe 1 wsTOCTOU).consumed.getD 1 0 =
      (runPipe 1 wsTOCTOU).consumed.getD 0 0 := by
  decide

/-- C7 amended: the capture worker changes the shared flag only after all
`nz` fill iterations of the current stack are complete (each iteration
storing a frame only when its read succeeds), and the slots it publishes
strictly alternate 1, 2, 1, 2, ...; the compress loop's poll (a sleep-based
poll, not a busy spin) unblocks only when the flag differs from the slot
it last consumed, and every slot it consumes names one of the two stacks —
but because the dispatch re-reads the flag after the poll, a mark arriving
between the two reads makes it consume the same slot twice in a row, so
the consumed slots themselves need not strictly alternate. -/
theorem handoff_protocol (nz : ℕ) (ws : List Worker) :
    (runPipe nz ws).marked = altList (runPipe nz ws).marked.length ∧
    (∀ i, i + 1 < (runPipe nz ws).marked.length →
      (runPipe nz ws).marked.getD (i + 1) 0 ≠
        (runPipe nz ws).marked.getD i 0) ∧
    (runPipe nz ws).fillIdx ≤ nz ∧
    ((stepAcq nz (runPipe nz ws)).bufValue ≠ (runPipe nz ws).bufValue →
      (runPipe nz ws).fillIdx = nz) ∧
    ((runPipe nz ws).redWaiting = true →
      (stepRed (runPipe nz ws)).redWaiting = false →
      (runPipe nz ws).bufValue ≠ (runPipe nz ws).consumed.getLastD 0) ∧
    (∀ v ∈ (runPipe nz ws).consumed, v = 1 ∨ v = 2) := by
  obtain ⟨h1, h2, h3, h4, h5⟩ := runPipe_inv nz ws
  refine ⟨h1, ?_, h3, ?_, ?_, h5⟩
  · intro i hi
    have hgi : (runPipe nz ws).marked.getD i 0 = altSlot i := by
      conv_lhs => rw [h1]
      exact altList_getD _ _ (by omega)
    have hgi1 : (runPipe nz ws).marked.getD (i + 1) 0 = altSlot (i + 1) := by
      conv_lhs => rw [h1]
      exact altList_getD _ _ (by omega)
    rw [hgi, hgi1]
    exact altSlot_ne_succ i
  · intro hne
    by_cases hf : (runPipe nz ws).fillIdx < nz
    · exfalso
      apply hne
      rw [stepAcq, if_pos hf]
    · omega
  · intro hw hstep
    have hc : (runPipe nz ws).bufValue = (runPipe nz ws).processBuf := by
      by_contra hcc
      rw [stepRed, if_pos hw, if_neg hcc] at hstep
      rw [hw] at hstep
      exact Bool.noConfusion hstep
    rw [hc, h4]
    by_cases hl : (runPipe nz ws).consumed.getLastD 0 = 1
    · rw [if_pos hl, hl]
      omega
    · rw [if_neg hl]
      exact fun he => hl he.symm

/-- A concrete schedule: fill two frames, mark, poll, fill two frames,
mark, consume. -/
def wsW : List Worker :=
  [Worker.acq, Worker.acq, Worker.acq, Worker.red,
    Worker.acq, Worker.acq, Worker.acq, Worker.red]

theorem handoff_protocol_witness :
    (runPipe 2 wsW).marked = altList (runPipe 2 wsW).marked.length ∧
    (∀ i, i + 1 < (runPipe 2 wsW).marked.length →
      (runPipe 2 wsW).marked.getD (i + 1) 0 ≠
        (runPipe 2 wsW).marked.getD i 0) ∧
    (runPipe 2 wsW).fillIdx ≤ 2 ∧
    ((stepAcq 2 (runPipe 2 wsW)).bufValue ≠ (runPipe 2 wsW).bufValue →
      (runPipe 2 wsW).fillIdx = 2) ∧
    ((runPipe 2 wsW).redWaiting = true →
      (stepRed (runPipe 2 wsW)).redWaiting = false →
      (runPipe 2 wsW).bufValue ≠ (runPipe 2 wsW).consumed.getLastD 0) ∧
    (∀ v ∈ (runPipe 2 wsW).consumed, v = 1 ∨ v = 2) :=
  handoff_protocol 2 wsW
